import Mathlib

/-!
Verification of the HMM Viterbi state-prediction tool
(`src/mlpack/methods/hmm/hmm_viterbi_main.cpp`).

The repository file is the command-line glue: it loads an observation
matrix, applies an orientation-correction heuristic, validates the
dimensionality against the model, and hands the matrix to the
Viterbi decoder of the HMM (`hmm.Predict`).  The decoder itself lives in
`hmm.hpp`/`hmm_impl.hpp`, which are not part of the repository snapshot;
its behaviour is modelled from the specification (log-space Viterbi with
lowest-index tie-breaking), and the glue is embedded directly from the
source.

Real-valued log-probabilities are modelled by rationals `ℚ`: the claims
under study are about the algorithmic structure (optimality, shape,
determinism, tie-breaking, validation order), not about floating-point
rounding.
-/

namespace HMMViterbi

/-- An in-memory `arma::mat`: `rows × cols` with rational entries.
In the source the observation matrix is stored column-major with one
observation per column, so `rows` is the per-observation dimensionality
and `cols` is the number of time steps (this is the convention that the
`dataSeq.n_rows != hmm.Emission()[0].Dimensionality()` check in the
source relies on). -/
structure Mat where
  rows : ℕ
  cols : ℕ
  entry : ℕ → ℕ → ℚ

/-- The arma transpose `.t()`. -/
def Mat.transpose (m : Mat) : Mat :=
  ⟨m.cols, m.rows, fun i j => m.entry j i⟩

/-- The fatal error raised by `Viterbi::Apply` when the observation
dimensionality does not match the model (`Log::Fatal` at lines 79–84),
carrying the actual and the expected dimensionality. -/
inductive ApplyError where
  | dimensionMismatch : ℕ → ℕ → ApplyError
deriving DecidableEq

/-- Lines 66–73 of `Viterbi::Apply`: "See if transposing the data could
make it the right dimensionality."  The matrix is transposed exactly
when it has a single column and the emission dimensionality `d` of the
model is 1; otherwise it is left untouched. -/
def applyOrient (d : ℕ) (dataSeq : Mat) : Mat :=
  if dataSeq.cols = 1 ∧ d = 1 then dataSeq.transpose else dataSeq

/-- The observation-handling part of `Viterbi::Apply` (lines 59–89):
orientation correction, then the dimensionality check, producing either
the fatal error or the matrix that is handed to `hmm.Predict`. -/
def viterbiApply (d : ℕ) (dataSeq : Mat) : Except ApplyError Mat :=
  let m := applyOrient d dataSeq
  if m.rows ≠ d then Except.error (ApplyError.dimensionMismatch m.rows d)
  else Except.ok m

/-- The error reported by `mlpackMain` when no output destination is
supplied. -/
inductive CliError where
  | noUsableOutputDestination
deriving DecidableEq

/-- Modelled from the spec: the body of `RequireAtLeastOnePassed` lives
in the mlpack util sources, which are not part of the repository snapshot
(only the call in `mlpackMain` is).  Per the specification the
command-line surface "exits non-zero and reports an error ... if no
output destination is usable".  `passed` lists, for each named
parameter of the constraint, whether the caller supplied it;
`fatalFlag` and `message` mirror the remaining arguments of the call. -/
def requireAtLeastOnePassed (passed : List Bool) (_fatalFlag : Bool)
    (_message : String) : Except CliError Unit :=
  if passed.any (fun b => b) then Except.ok ()
  else Except.error CliError.noUsableOutputDestination

/-- The output-destination gate of `mlpackMain` (line 99):
`RequireAtLeastOnePassed({ "output" }, false, "no results will be saved")`,
where `outputPassed` says whether the `output` parameter was supplied. -/
def mlpackMainGate (outputPassed : Bool) : Except CliError Unit :=
  requireAtLeastOnePassed [outputPassed] false "no results will be saved"

/-! ## The HMM and the Viterbi decoder

`hmm.Predict` — the decoder proper — is declared in `hmm.hpp` and
implemented in `hmm_impl.hpp`, neither of which is part of the
repository snapshot; the definitions below are modelled from the
algorithm of spec §4.2. -/

/-- Modelled from the spec: an HMM exposing `{N, D, initialLogProb,
transitionLogProb, emission}`.  States are indexed `0 .. n-1`;
`logDensity s x` is the emission log-density of observation vector `x`
in state `s` (the per-state emission models of the source, behind the
`logDensity(state, observation)` interface of spec §4.1). -/
structure HMM where
  n : ℕ
  d : ℕ
  initialLogProb : ℕ → ℚ
  transitionLogProb : ℕ → ℕ → ℚ
  logDensity : ℕ → List ℚ → ℚ

/-- Index in `[0, n)` maximizing `f`, with ties broken by preferring the
lowest index: the candidate `n` only replaces the best of `[0, n)` when
it is strictly better.  For `n = 0` the result is the junk value `0`. -/
def argmaxIdx (f : ℕ → ℚ) : ℕ → ℕ
  | 0 => 0
  | n + 1 => if f (argmaxIdx f n) < f n then n else argmaxIdx f n

/-- The maximum of `f` over `[0, n)` (junk for `n = 0`). -/
def maxOver (f : ℕ → ℚ) (n : ℕ) : ℚ := f (argmaxIdx f n)

/-- Modelled from the spec: the trellis scores.  `deltaRow hmm obs t s`
is `delta[t][s]`, the best cumulative log-probability of any state
sequence ending in state `s` at time `t`:
`delta[0][s] = initialLogProb[s] + logDensity(s, obs[0])` and
`delta[t][s] = max over u of (delta[t-1][u] + transitionLogProb[u][s])
+ logDensity(s, obs[t])`. -/
def deltaRow (hmm : HMM) (obs : List (List ℚ)) : ℕ → ℕ → ℚ
  | 0 => fun s => hmm.initialLogProb s + hmm.logDensity s (obs.getD 0 [])
  | t + 1 => fun s =>
      maxOver (fun u => deltaRow hmm obs t u + hmm.transitionLogProb u s) hmm.n
        + hmm.logDensity s (obs.getD (t + 1) [])

/-- Modelled from the spec: the backpointer `psi[t][s]` for `t ≥ 1`, the
maximizing predecessor of state `s` at time `t` (lowest index on ties). -/
def psi (hmm : HMM) (obs : List (List ℚ)) (t s : ℕ) : ℕ :=
  argmaxIdx (fun u => deltaRow hmm obs (t - 1) u + hmm.transitionLogProb u s) hmm.n

/-- Modelled from the spec: the backtrace.  `tracePath hmm obs t s` is
the state sequence for times `0 .. t` obtained by ending at state `s`
at time `t` and following the backpointers. -/
def tracePath (hmm : HMM) (obs : List (List ℚ)) : ℕ → ℕ → List ℕ
  | 0, s => [s]
  | t + 1, s => tracePath hmm obs t (psi hmm obs (t + 1) s) ++ [s]

/-- Modelled from the spec: `bestFinal = argmax over s of delta[T-1][s]`
(lowest index wins ties). -/
def bestFinal (hmm : HMM) (obs : List (List ℚ)) : ℕ :=
  argmaxIdx (fun s => deltaRow hmm obs (obs.length - 1) s) hmm.n

/-- The error kinds of the decoder (spec §7). -/
inductive DecodeError where
  | emptyInput
  | dimensionMismatch
deriving DecidableEq

/-- Modelled from the spec: `decode(hmm, observations)` — the operation
`hmm.Predict` performs.  `obs` is the observation sequence, one vector
per time step.  Validation first (`EmptyInputError` for `T = 0`,
`DimensionMismatchError` when the dimensionality of some observation differs
from `hmm.d`), then the Viterbi recursion and backtrace. -/
def decode (hmm : HMM) (obs : List (List ℚ)) : Except DecodeError (List ℕ) :=
  if obs.length = 0 then Except.error DecodeError.emptyInput
  else if ¬ (obs.all fun o => o.length == hmm.d) then
    Except.error DecodeError.dimensionMismatch
  else Except.ok (tracePath hmm obs (obs.length - 1) (bestFinal hmm obs))

/-- The columns of an observation matrix as the list of observation
vectors, matching the column-per-observation convention of the source. -/
def matColumns (m : Mat) : List (List ℚ) :=
  (List.range m.cols).map fun j => (List.range m.rows).map fun i => m.entry i j

/-- The whole `Viterbi::Apply` data path: orientation correction plus
dimensionality check, then the decoder on the columns of the matrix
that was handed to `hmm.Predict`. -/
def viterbiPipeline (hmm : HMM) (dataSeq : Mat) :
    Except ApplyError (Except DecodeError (List ℕ)) :=
  (viterbiApply hmm.d dataSeq).map fun m => decode hmm (matColumns m)

/-! ## Path scores

The joint log-probability of a state sequence, in the shape the
specification writes it: `initialLogProb[path[0]] +
sum_t transitionLogProb[path[t-1]][path[t]] +
sum_t logDensity(path[t], observations[t])`. -/

/-- Sum of transition log-probabilities along a state sequence. -/
def transScore (hmm : HMM) : List ℕ → ℚ
  | s :: s' :: rest => hmm.transitionLogProb s s' + transScore hmm (s' :: rest)
  | _ => 0

/-- Sum of emission log-densities of a state sequence against the
observation sequence, aligned position by position. -/
def emitScore (hmm : HMM) : List ℕ → List (List ℚ) → ℚ
  | s :: ss, o :: os => hmm.logDensity s o + emitScore hmm ss os
  | _, _ => 0

/-- The joint log-probability of a state sequence `path` for the
observation sequence `obs`. -/
def pathScore (hmm : HMM) (path : List ℕ) (obs : List (List ℚ)) : ℚ :=
  hmm.initialLogProb (path.headD 0) + transScore hmm path + emitScore hmm path obs

/-- The last state of a sequence (junk value `0` for the empty one). -/
def lastState : List ℕ → ℕ
  | [] => 0
  | [s] => s
  | _ :: s :: rest => lastState (s :: rest)

/-! ## Properties of the argmax -/

theorem argmaxIdx_le (f : ℕ → ℚ) (n : ℕ) : argmaxIdx f n ≤ n := by
  induction n with
  | zero => exact Nat.le_refl 0
  | succ n ih =>
    simp only [argmaxIdx]
    split
    · exact Nat.le_succ n
    · exact Nat.le_succ_of_le ih

theorem argmaxIdx_lt (f : ℕ → ℚ) (n : ℕ) (hn : 1 ≤ n) : argmaxIdx f n < n := by
  cases n with
  | zero => omega
  | succ n =>
    simp only [argmaxIdx]
    split
    · exact Nat.lt_succ_self n
    · exact Nat.lt_succ_of_le (argmaxIdx_le f n)

theorem le_maxOver (f : ℕ → ℚ) (n : ℕ) : ∀ j < n, f j ≤ maxOver f n := by
  induction n with
  | zero => intro j hj; omega
  | succ n ih =>
    intro j hj
    simp only [maxOver, argmaxIdx]
    rcases lt_or_ge (f (argmaxIdx f n)) (f n) with h | h
    · rw [if_pos h]
      rcases Nat.lt_succ_iff_lt_or_eq.mp hj with hj1 | rfl
      · exact le_trans (ih j hj1) (le_of_lt h)
      · exact le_refl _
    · rw [if_neg (not_lt.mpr h)]
      rcases Nat.lt_succ_iff_lt_or_eq.mp hj with hj1 | rfl
      · exact ih j hj1
      · exact h

theorem lt_maxOver_of_lt_argmaxIdx (f : ℕ → ℚ) (n : ℕ) :
    ∀ j < argmaxIdx f n, f j < maxOver f n := by
  induction n with
  | zero => intro j hj; simp [argmaxIdx] at hj
  | succ n ih =>
    intro j hj
    simp only [maxOver, argmaxIdx] at hj ⊢
    rcases lt_or_ge (f (argmaxIdx f n)) (f n) with h | h
    · rw [if_pos h] at hj ⊢
      exact lt_of_le_of_lt (le_maxOver f n j hj) h
    · rw [if_neg (not_lt.mpr h)] at hj ⊢
      exact ih j hj

theorem argmaxIdx_le_of_eq (f : ℕ → ℚ) (n j : ℕ)
    (h : f j = maxOver f n) : argmaxIdx f n ≤ j := by
  by_contra hc
  exact absurd h (ne_of_lt (lt_maxOver_of_lt_argmaxIdx f n j (not_le.mp hc)))

theorem argmaxIdx_congr (f g : ℕ → ℚ) (n : ℕ) (h : ∀ j < n, f j = g j) :
    argmaxIdx f n = argmaxIdx g n := by
  induction n with
  | zero => rfl
  | succ n ih =>
    have hb : argmaxIdx f n = argmaxIdx g n :=
      ih fun j hj => h j (Nat.lt_succ_of_lt hj)
    simp only [argmaxIdx, hb]
    rw [h (argmaxIdx g n) (Nat.lt_succ_of_le (argmaxIdx_le g n)),
        h n (Nat.lt_succ_self n)]

/-! ## Properties of the path score -/

theorem lastState_concat (q : List ℕ) (s : ℕ) : lastState (q ++ [s]) = s := by
  induction q with
  | nil => rfl
  | cons a q ih =>
    cases q with
    | nil => rfl
    | cons b q2 => exact ih

theorem lastState_mem (q : List ℕ) (hq : q ≠ []) : lastState q ∈ q := by
  induction q with
  | nil => exact absurd rfl hq
  | cons a q ih =>
    cases q with
    | nil => simp [lastState]
    | cons b q2 =>
      exact List.mem_cons_of_mem a (ih (by simp))

theorem transScore_concat (hmm : HMM) (q : List ℕ) (s : ℕ) (hq : q ≠ []) :
    transScore hmm (q ++ [s]) =
      transScore hmm q + hmm.transitionLogProb (lastState q) s := by
  induction q with
  | nil => exact absurd rfl hq
  | cons a q ih =>
    cases q with
    | nil =>
      show hmm.transitionLogProb a s + transScore hmm [s] = _
      simp [transScore, lastState]
    | cons b q2 =>
      have h := ih (by simp)
      have e1 : transScore hmm ((a :: b :: q2) ++ [s]) =
          hmm.transitionLogProb a b + transScore hmm ((b :: q2) ++ [s]) := rfl
      have e2 : transScore hmm (a :: b :: q2) =
          hmm.transitionLogProb a b + transScore hmm (b :: q2) := rfl
      have e3 : lastState (a :: b :: q2) = lastState (b :: q2) := rfl
      rw [e1, h, e2, e3, add_assoc]

theorem emitScore_concat (hmm : HMM) (q : List ℕ) :
    ∀ (obs : List (List ℚ)) (s : ℕ), q.length < obs.length →
      emitScore hmm (q ++ [s]) obs =
        emitScore hmm q obs + hmm.logDensity s (obs.getD q.length []) := by
  induction q with
  | nil =>
    intro obs s h
    cases obs with
    | nil => simp at h
    | cons o os =>
      have e1 : emitScore hmm [s] (o :: os) =
          hmm.logDensity s o + emitScore hmm [] os := rfl
      have e2 : emitScore hmm ([] : List ℕ) os = 0 := rfl
      have e3 : emitScore hmm ([] : List ℕ) (o :: os) = 0 := rfl
      simp [e1, e2, e3]
  | cons a q2 ih =>
    intro obs s h
    cases obs with
    | nil => simp at h
    | cons o os =>
      have h2 : q2.length < os.length := by
        simpa [List.length_cons, Nat.succ_lt_succ_iff] using h
      have e1 : emitScore hmm ((a :: q2) ++ [s]) (o :: os) =
          hmm.logDensity a o + emitScore hmm (q2 ++ [s]) os := rfl
      have e2 : emitScore hmm (a :: q2) (o :: os) =
          hmm.logDensity a o + emitScore hmm q2 os := rfl
      rw [e1, ih os s h2, e2, add_assoc]
      have e3 : (o :: os).getD (a :: q2).length [] = os.getD q2.length [] := by
        simp [List.getD_cons_succ]
      rw [e3]

theorem pathScore_concat (hmm : HMM) (q : List ℕ) (obs : List (List ℚ)) (s : ℕ)
    (hq : q ≠ []) (h : q.length < obs.length) :
    pathScore hmm (q ++ [s]) obs =
      pathScore hmm q obs + hmm.transitionLogProb (lastState q) s
        + hmm.logDensity s (obs.getD q.length []) := by
  unfold pathScore
  rw [transScore_concat hmm q s hq, emitScore_concat hmm q obs s h]
  have hh : (q ++ [s]).headD 0 = q.headD 0 := by
    cases q with
    | nil => exact absurd rfl hq
    | cons a q2 => rfl
  rw [hh]; ring

/-! ## Correctness of the trellis recursion -/

theorem tracePath_ne_nil (hmm : HMM) (obs : List (List ℚ)) (t s : ℕ) :
    tracePath hmm obs t s ≠ [] := by
  cases t with
  | zero => simp [tracePath]
  | succ t => simp [tracePath]

theorem tracePath_length (hmm : HMM) (obs : List (List ℚ)) :
    ∀ t s, (tracePath hmm obs t s).length = t + 1 := by
  intro t
  induction t with
  | zero => intro s; rfl
  | succ t ih =>
    intro s
    have e : tracePath hmm obs (t + 1) s =
        tracePath hmm obs t (psi hmm obs (t + 1) s) ++ [s] := rfl
    rw [e, List.length_append, ih]; rfl

/-- Every state sequence of length `t + 1` whose states are valid scores
at most the trellis value of its final state at time `t`. -/
theorem pathScore_le_deltaRow (hmm : HMM) (obs : List (List ℚ)) :
    ∀ (t : ℕ) (q : List ℕ), q.length = t + 1 → (∀ x ∈ q, x < hmm.n) →
      t < obs.length →
      pathScore hmm q obs ≤ deltaRow hmm obs t (lastState q) := by
  intro t
  induction t with
  | zero =>
    intro q hlen hmem hT
    match q, hlen with
    | [s], _ =>
      cases obs with
      | nil => simp at hT
      | cons o os =>
        have e1 : pathScore hmm [s] (o :: os) =
            hmm.initialLogProb s + 0 + (hmm.logDensity s o + 0) := rfl
        have e2 : deltaRow hmm (o :: os) 0 (lastState [s]) =
            hmm.initialLogProb s + hmm.logDensity s o := rfl
        rw [e1, e2]; ring_nf; exact le_refl _
  | succ t ih =>
    intro q hlen hmem hT
    rcases List.eq_nil_or_concat q with rfl | ⟨q2, s, rfl⟩
    · simp at hlen
    · rw [List.concat_eq_append] at hlen hmem ⊢
      have hq2len : q2.length = t + 1 := by
        rw [List.length_append, List.length_singleton] at hlen
        omega
      have hq2ne : q2 ≠ [] := by
        intro h; rw [h] at hq2len; simp at hq2len
      have hmem2 : ∀ x ∈ q2, x < hmm.n := fun x hx => hmem x (by simp [hx])
      have hT2 : t < obs.length := Nat.lt_of_succ_lt hT
      have hlt : q2.length < obs.length := by omega
      rw [lastState_concat, pathScore_concat hmm q2 obs s hq2ne hlt]
      have hu : lastState q2 < hmm.n := hmem2 _ (lastState_mem q2 hq2ne)
      have h1 : pathScore hmm q2 obs ≤ deltaRow hmm obs t (lastState q2) :=
        ih q2 hq2len hmem2 hT2
      have h2 : deltaRow hmm obs t (lastState q2) +
          hmm.transitionLogProb (lastState q2) s ≤
          maxOver (fun u => deltaRow hmm obs t u + hmm.transitionLogProb u s)
            hmm.n :=
        le_maxOver (fun u => deltaRow hmm obs t u + hmm.transitionLogProb u s)
          hmm.n (lastState q2) hu
      have e : deltaRow hmm obs (t + 1) s =
          maxOver (fun u => deltaRow hmm obs t u + hmm.transitionLogProb u s)
            hmm.n + hmm.logDensity s (obs.getD (t + 1) []) := rfl
      rw [e, hq2len]
      linarith

/-- The backtraced path ending at a valid state `s` at time `t` has
length `t + 1`, ends at `s`, stays in `[0, n)`, and its score equals the
trellis value `delta[t][s]`. -/
theorem tracePath_spec (hmm : HMM) (obs : List (List ℚ)) (hn : 1 ≤ hmm.n) :
    ∀ (t s : ℕ), s < hmm.n → t < obs.length →
      lastState (tracePath hmm obs t s) = s ∧
      (∀ x ∈ tracePath hmm obs t s, x < hmm.n) ∧
      pathScore hmm (tracePath hmm obs t s) obs = deltaRow hmm obs t s := by
  intro t
  induction t with
  | zero =>
    intro s hs hT
    cases obs with
    | nil => simp at hT
    | cons o os =>
      refine ⟨rfl, ?_, ?_⟩
      · intro x hx
        have : x = s := by simpa [tracePath] using hx
        rw [this]; exact hs
      · have e1 : pathScore hmm [s] (o :: os) =
            hmm.initialLogProb s + 0 + (hmm.logDensity s o + 0) := rfl
        have e2 : deltaRow hmm (o :: os) 0 s =
            hmm.initialLogProb s + hmm.logDensity s o := rfl
        show pathScore hmm [s] (o :: os) = deltaRow hmm (o :: os) 0 s
        rw [e1, e2]; ring
  | succ t ih =>
    intro s hs hT
    have hp : psi hmm obs (t + 1) s < hmm.n :=
      argmaxIdx_lt (fun u => deltaRow hmm obs t u + hmm.transitionLogProb u s)
        hmm.n hn
    have hT2 : t < obs.length := Nat.lt_of_succ_lt hT
    obtain ⟨hLast, hMem, hScore⟩ := ih (psi hmm obs (t + 1) s) hp hT2
    have htp : tracePath hmm obs (t + 1) s =
        tracePath hmm obs t (psi hmm obs (t + 1) s) ++ [s] := rfl
    refine ⟨by rw [htp, lastState_concat], ?_, ?_⟩
    · intro x hx
      rw [htp] at hx
      rcases List.mem_append.mp hx with h | h
      · exact hMem x h
      · have : x = s := by simpa using h
        rw [this]; exact hs
    · have hlen : (tracePath hmm obs t (psi hmm obs (t + 1) s)).length = t + 1 :=
        tracePath_length hmm obs t _
      rw [htp, pathScore_concat hmm _ obs s (tracePath_ne_nil hmm obs t _)
        (by rw [hlen]; exact hT)]
      rw [hScore, hLast, hlen]
      have e1 : deltaRow hmm obs t (psi hmm obs (t + 1) s) +
          hmm.transitionLogProb (psi hmm obs (t + 1) s) s =
          maxOver (fun u => deltaRow hmm obs t u + hmm.transitionLogProb u s)
            hmm.n := rfl
      have e2 : deltaRow hmm obs (t + 1) s =
          maxOver (fun u => deltaRow hmm obs t u + hmm.transitionLogProb u s)
            hmm.n + hmm.logDensity s (obs.getD (t + 1) []) := rfl
      rw [e1, e2]

/-- Elimination form of a successful `decode`. -/
theorem decode_ok_elim (hmm : HMM) (obs : List (List ℚ)) (path : List ℕ)
    (h : decode hmm obs = Except.ok path) :
    obs.length ≠ 0 ∧ (∀ o ∈ obs, o.length = hmm.d) ∧
      path = tracePath hmm obs (obs.length - 1) (bestFinal hmm obs) := by
  unfold decode at h
  split at h
  · exact absurd h (by simp)
  · split at h
    · exact absurd h (by simp)
    · rename_i h1 h2
      refine ⟨h1, ?_, (Except.ok.inj h).symm⟩
      intro o ho
      have h3 : obs.all (fun o => o.length == hmm.d) = true := by
        by_contra hc
        exact h2 (by simpa using hc)
      have := List.all_eq_true.mp h3 o ho
      simpa using this

/-! ## The decode result depends only on the model parameters

Pointwise agreement of two models on the valid states `[0, n)` is
enough for every intermediate quantity, and hence the decoded sequence,
to coincide. -/

section Congruence

variable (h1 h2 : HMM) (obs : List (List ℚ))

theorem deltaRow_congr (hn : h1.n = h2.n) (hpos : 1 ≤ h1.n)
    (hinit : ∀ s < h1.n, h1.initialLogProb s = h2.initialLogProb s)
    (htr : ∀ s < h1.n, ∀ u < h1.n,
      h1.transitionLogProb s u = h2.transitionLogProb s u)
    (hdens : ∀ s < h1.n, ∀ o, h1.logDensity s o = h2.logDensity s o) :
    ∀ t, ∀ s < h1.n, deltaRow h1 obs t s = deltaRow h2 obs t s := by
  intro t
  induction t with
  | zero =>
    intro s hs
    show h1.initialLogProb s + h1.logDensity s (obs.getD 0 []) =
        h2.initialLogProb s + h2.logDensity s (obs.getD 0 [])
    rw [hinit s hs, hdens s hs]
  | succ t ih =>
    intro s hs
    have hfun : ∀ u < h1.n,
        deltaRow h1 obs t u + h1.transitionLogProb u s =
          deltaRow h2 obs t u + h2.transitionLogProb u s := by
      intro u hu
      rw [ih u hu, htr u hu s hs]
    have harg : argmaxIdx
        (fun u => deltaRow h1 obs t u + h1.transitionLogProb u s) h1.n =
        argmaxIdx (fun u => deltaRow h2 obs t u + h2.transitionLogProb u s)
          h1.n :=
      argmaxIdx_congr _ _ h1.n hfun
    have hmax : maxOver
        (fun u => deltaRow h1 obs t u + h1.transitionLogProb u s) h1.n =
        maxOver (fun u => deltaRow h2 obs t u + h2.transitionLogProb u s)
          h1.n := by
      unfold maxOver
      rw [harg]
      exact hfun _ (argmaxIdx_lt _ h1.n hpos)
    have e : deltaRow h2 obs (t + 1) s =
        maxOver (fun u => deltaRow h2 obs t u + h2.transitionLogProb u s) h2.n
          + h2.logDensity s (obs.getD (t + 1) []) := rfl
    show maxOver (fun u => deltaRow h1 obs t u + h1.transitionLogProb u s)
        h1.n + h1.logDensity s (obs.getD (t + 1) []) = _
    rw [hmax, hdens s hs, hn]
    exact e.symm

theorem psi_congr (hn : h1.n = h2.n) (hpos : 1 ≤ h1.n)
    (hinit : ∀ s < h1.n, h1.initialLogProb s = h2.initialLogProb s)
    (htr : ∀ s < h1.n, ∀ u < h1.n,
      h1.transitionLogProb s u = h2.transitionLogProb s u)
    (hdens : ∀ s < h1.n, ∀ o, h1.logDensity s o = h2.logDensity s o) :
    ∀ t s, s < h1.n → psi h1 obs t s = psi h2 obs t s := by
  intro t s hs
  unfold psi
  rw [← hn]
  exact argmaxIdx_congr _ _ h1.n fun u hu => by
    rw [deltaRow_congr h1 h2 obs hn hpos hinit htr hdens (t - 1) u hu,
        htr u hu s hs]

theorem tracePath_congr (hn : h1.n = h2.n) (hpos : 1 ≤ h1.n)
    (hinit : ∀ s < h1.n, h1.initialLogProb s = h2.initialLogProb s)
    (htr : ∀ s < h1.n, ∀ u < h1.n,
      h1.transitionLogProb s u = h2.transitionLogProb s u)
    (hdens : ∀ s < h1.n, ∀ o, h1.logDensity s o = h2.logDensity s o) :
    ∀ t s, s < h1.n → tracePath h1 obs t s = tracePath h2 obs t s := by
  intro t
  induction t with
  | zero => intro s _; rfl
  | succ t ih =>
    intro s hs
    have hp : psi h1 obs (t + 1) s < h1.n :=
      argmaxIdx_lt _ h1.n hpos
    have e1 : tracePath h1 obs (t + 1) s =
        tracePath h1 obs t (psi h1 obs (t + 1) s) ++ [s] := rfl
    have e2 : tracePath h2 obs (t + 1) s =
        tracePath h2 obs t (psi h2 obs (t + 1) s) ++ [s] := rfl
    rw [e1, e2, ← psi_congr h1 h2 obs hn hpos hinit htr hdens (t + 1) s hs,
        ih (psi h1 obs (t + 1) s) hp]

theorem bestFinal_congr (hn : h1.n = h2.n) (hpos : 1 ≤ h1.n)
    (hinit : ∀ s < h1.n, h1.initialLogProb s = h2.initialLogProb s)
    (htr : ∀ s < h1.n, ∀ u < h1.n,
      h1.transitionLogProb s u = h2.transitionLogProb s u)
    (hdens : ∀ s < h1.n, ∀ o, h1.logDensity s o = h2.logDensity s o) :
    bestFinal h1 obs = bestFinal h2 obs := by
  unfold bestFinal
  rw [← hn]
  exact argmaxIdx_congr _ _ h1.n fun u hu =>
    deltaRow_congr h1 h2 obs hn hpos hinit htr hdens (obs.length - 1) u hu

end Congruence

/-! ## Concrete instances used by the witnesses -/

/-- A two-state, one-dimensional HMM: state 0 favours small
observations, state 1 large ones. -/
def exHMM : HMM where
  n := 2
  d := 1
  initialLogProb := fun s => if s = 0 then 0 else -10
  transitionLogProb := fun _ _ => 0
  logDensity := fun s o => if s = 0 then -(o.headD 0) else o.headD 0

/-- A model that agrees with `exHMM` on the valid states `0` and `1`
but differs everywhere outside them. -/
def exHMM2 : HMM where
  n := 2
  d := 1
  initialLogProb := fun s => if s = 0 then 0 else if s = 1 then -10 else 99
  transitionLogProb := fun s u => if s < 2 ∧ u < 2 then 0 else 7
  logDensity := fun s o =>
    if s = 0 then -(o.headD 0) else if s = 1 then o.headD 0 else 5

/-- A single-state, one-dimensional HMM. -/
def exHMM1 : HMM where
  n := 1
  d := 1
  initialLogProb := fun _ => 0
  transitionLogProb := fun _ _ => 0
  logDensity := fun _ o => o.headD 0

/-- A two-step, one-dimensional observation sequence. -/
def exObs : List (List ℚ) := [[1], [1]]

/-- A loaded 3×1 observation matrix (one column of dimensionality 3). -/
def exMat : Mat := ⟨3, 1, fun i _ => (i : ℚ)⟩

/-- A loaded 1×3 observation matrix (three one-dimensional columns). -/
def exMatWide : Mat := ⟨1, 3, fun _ j => (j : ℚ)⟩

/-- A loaded 2×3 observation matrix. -/
def exMat23 : Mat := ⟨2, 3, fun i j => (i : ℚ) + j⟩

theorem applyOrient_of_cond (d : ℕ) (m : Mat) (h : m.cols = 1 ∧ d = 1) :
    applyOrient d m = m.transpose := by
  unfold applyOrient; rw [if_pos h]

theorem applyOrient_of_not (d : ℕ) (m : Mat) (h : ¬ (m.cols = 1 ∧ d = 1)) :
    applyOrient d m = m := by
  unfold applyOrient; rw [if_neg h]

/-! ## The claims -/

/-- C4: an observation input of length `T = 0` makes `decode` fail with
`EmptyInputError` before any recursion is performed. -/
theorem decode_empty_input (hmm : HMM) (obs : List (List ℚ))
    (h : obs.length = 0) :
    decode hmm obs = Except.error DecodeError.emptyInput := by
  unfold decode
  rw [if_pos h]

theorem decode_empty_input_witness :
    decode exHMM [] = Except.error DecodeError.emptyInput :=
  decode_empty_input exHMM [] rfl

/-- C5: the source transposes the loaded observation matrix exactly when
the matrix has one column and the emission dimensionality of the model is
1, and performs no transposition in any other case. -/
theorem transpose_correction_iff (d : ℕ) (m : Mat) :
    (m.cols = 1 ∧ d = 1 → applyOrient d m = m.transpose) ∧
    (¬ (m.cols = 1 ∧ d = 1) → applyOrient d m = m) :=
  ⟨applyOrient_of_cond d m, applyOrient_of_not d m⟩

theorem transpose_correction_iff_witness :
    applyOrient 1 exMat = exMat.transpose ∧
    applyOrient 1 exMatWide = exMatWide :=
  ⟨(transpose_correction_iff 1 exMat).1 (by decide),
   (transpose_correction_iff 1 exMatWide).2 (by decide)⟩

/-- C3 fails on the code: a loaded observation matrix of per-observation
dimensionality 3 (a single column of 3 rows) against a model of
dimensionality 1 is not rejected with a dimension-mismatch error —
the source silently guesses the orientation, transposes it, hands the
transposed matrix to `hmm.Predict`, and a state sequence is returned. -/
theorem orientation_guess_counterexample :
    exMat.rows = 3 ∧ exHMM1.d = 1 ∧ (3 : ℕ) ≠ 1 ∧
    viterbiApply exHMM1.d exMat = Except.ok exMat.transpose ∧
    viterbiPipeline exHMM1 exMat = Except.ok (Except.ok [0, 0, 0]) := by
  refine ⟨rfl, rfl, by decide, rfl, ?_⟩
  norm_num [viterbiPipeline, viterbiApply, applyOrient, Except.map, decode,
    exHMM1, exMat, matColumns, Mat.transpose, bestFinal, tracePath, psi,
    deltaRow, maxOver, argmaxIdx, List.range_succ]

/-- C3 amended: an observation matrix whose dimensionality (row count)
differs from the emission dimensionality `d` of the model fails with the
dimension-mismatch fatal error — except in the single-column, `d = 1`
case, where the source silently transposes and accepts it. -/
theorem dimension_mismatch_amended (d : ℕ) (m : Mat)
    (hno : ¬ (m.cols = 1 ∧ d = 1)) (hdim : m.rows ≠ d) :
    viterbiApply d m =
      Except.error (ApplyError.dimensionMismatch m.rows d) := by
  show (if (applyOrient d m).rows ≠ d
      then Except.error (ApplyError.dimensionMismatch (applyOrient d m).rows d)
      else Except.ok (applyOrient d m)) = _
  rw [applyOrient_of_not d m hno, if_pos hdim]

theorem dimension_mismatch_amended_witness :
    viterbiApply 2 exMat = Except.error (ApplyError.dimensionMismatch 3 2) :=
  dimension_mismatch_amended 2 exMat (by decide) (by decide)

/-- C9: when no output destination is supplied the tool reports an error
and fails instead of completing silently (with `RequireAtLeastOnePassed`
modelled from the spec, its body being outside the snapshot). -/
theorem mlpackMainGate_requires_output :
    mlpackMainGate false = Except.error CliError.noUsableOutputDestination ∧
    mlpackMainGate true = Except.ok () :=
  ⟨rfl, rfl⟩

/-- C10: when the loaded matrix has more than one column, or the model
dimensionality is not 1, the matrix handed to `hmm.Predict` is exactly
the matrix as loaded. -/
theorem predict_receives_loaded_matrix (d : ℕ) (m m2 : Mat)
    (hcond : 1 < m.cols ∨ d ≠ 1) (h : viterbiApply d m = Except.ok m2) :
    m2 = m := by
  have hno : ¬ (m.cols = 1 ∧ d = 1) := by
    rintro ⟨e1, e2⟩
    rcases hcond with h3 | h3 <;> omega
  rw [show viterbiApply d m = (if (applyOrient d m).rows ≠ d
      then Except.error (ApplyError.dimensionMismatch (applyOrient d m).rows d)
      else Except.ok (applyOrient d m)) from rfl,
    applyOrient_of_not d m hno] at h
  split at h
  · exact absurd h (by simp)
  · exact (Except.ok.inj h).symm

theorem predict_receives_loaded_matrix_witness :
    (1 < exMat23.cols ∨ (2 : ℕ) ≠ 1) ∧
    viterbiApply 2 exMat23 = Except.ok exMat23 ∧ exMat23 = exMat23 :=
  ⟨by decide, rfl,
    predict_receives_loaded_matrix 2 exMat23 exMat23 (by decide) rfl⟩

/-- C1: for every valid HMM (at least one state) and every observation
sequence that passes validation, the decoded path maximizes the joint
log-probability over all length-`T` state sequences — an exact optimum,
not an approximation. -/
theorem decode_maximizes (hmm : HMM) (obs : List (List ℚ)) (path : List ℕ)
    (hn : 1 ≤ hmm.n) (hok : decode hmm obs = Except.ok path)
    (q : List ℕ) (hlen : q.length = obs.length)
    (hmem : ∀ x ∈ q, x < hmm.n) :
    pathScore hmm q obs ≤ pathScore hmm path obs := by
  obtain ⟨hT, _, rfl⟩ := decode_ok_elim hmm obs path hok
  have hT1 : obs.length - 1 < obs.length := by omega
  have hbf : bestFinal hmm obs < hmm.n :=
    argmaxIdx_lt (fun s => deltaRow hmm obs (obs.length - 1) s) hmm.n hn
  obtain ⟨_, _, hScore⟩ :=
    tracePath_spec hmm obs hn (obs.length - 1) (bestFinal hmm obs) hbf hT1
  rw [hScore]
  have hqne : q ≠ [] := by
    intro h; rw [h] at hlen; simp at hlen; omega
  have h1 : pathScore hmm q obs ≤
      deltaRow hmm obs (obs.length - 1) (lastState q) :=
    pathScore_le_deltaRow hmm obs (obs.length - 1) q (by omega) hmem hT1
  have h2 := le_maxOver (fun s => deltaRow hmm obs (obs.length - 1) s) hmm.n
    (lastState q) (hmem _ (lastState_mem q hqne))
  have e2 : maxOver (fun s => deltaRow hmm obs (obs.length - 1) s) hmm.n =
      deltaRow hmm obs (obs.length - 1) (bestFinal hmm obs) := rfl
  rw [e2] at h2
  exact le_trans h1 h2

theorem decode_maximizes_witness :
    1 ≤ exHMM.n ∧ decode exHMM exObs = Except.ok [0, 1] ∧
    ([1, 1] : List ℕ).length = exObs.length ∧
    (∀ x ∈ ([1, 1] : List ℕ), x < exHMM.n) ∧
    pathScore exHMM [1, 1] exObs ≤ pathScore exHMM [0, 1] exObs := by
  have hok : decode exHMM exObs = Except.ok [0, 1] := by
    norm_num [decode, exHMM, exObs, bestFinal, tracePath, psi, deltaRow,
      maxOver, argmaxIdx]
  exact ⟨by decide, hok, by decide, by decide,
    decode_maximizes exHMM exObs [0, 1] (by decide) hok [1, 1] (by decide)
      (by decide)⟩

/-- C2: for every valid HMM and every observation sequence accepted by
validation, `decode` returns a sequence of exactly length `T`, with
every entry a state index in `[0, N)`. -/
theorem decode_length_and_range (hmm : HMM) (obs : List (List ℚ))
    (path : List ℕ) (hn : 1 ≤ hmm.n)
    (hok : decode hmm obs = Except.ok path) :
    path.length = obs.length ∧ ∀ x ∈ path, x < hmm.n := by
  obtain ⟨hT, _, rfl⟩ := decode_ok_elim hmm obs path hok
  have hT1 : obs.length - 1 < obs.length := by omega
  have hbf : bestFinal hmm obs < hmm.n :=
    argmaxIdx_lt (fun s => deltaRow hmm obs (obs.length - 1) s) hmm.n hn
  obtain ⟨_, hMem, _⟩ :=
    tracePath_spec hmm obs hn (obs.length - 1) (bestFinal hmm obs) hbf hT1
  refine ⟨?_, hMem⟩
  rw [tracePath_length hmm obs]
  omega

theorem decode_length_and_range_witness :
    ([0, 1] : List ℕ).length = exObs.length ∧
    ∀ x ∈ ([0, 1] : List ℕ), x < exHMM.n := by
  have hok : decode exHMM exObs = Except.ok [0, 1] := by
    norm_num [decode, exHMM, exObs, bestFinal, tracePath, psi, deltaRow,
      maxOver, argmaxIdx]
  exact decode_length_and_range exHMM exObs [0, 1] (by decide) hok

/-- C6: every failure of `decode` comes from the up-front validation
(empty input or dimension mismatch); once validation passes, no error
is possible and the returned path always has full length `T`. -/
theorem decode_no_midway_failure (hmm : HMM) (obs : List (List ℚ)) :
    (∀ e, decode hmm obs = Except.error e →
      obs.length = 0 ∨ ¬ (∀ o ∈ obs, o.length = hmm.d)) ∧
    (obs.length ≠ 0 → (∀ o ∈ obs, o.length = hmm.d) →
      ∀ e, decode hmm obs ≠ Except.error e) ∧
    (∀ p, decode hmm obs = Except.ok p → p.length = obs.length) := by
  have hall : (obs.all fun o => o.length == hmm.d) = true ↔
      ∀ o ∈ obs, o.length = hmm.d := by
    simp [List.all_eq_true]
  refine ⟨?_, ?_, ?_⟩
  · intro e he
    unfold decode at he
    split at he
    · left; assumption
    · split at he
      · rename_i h2
        right
        intro hc
        exact h2 (hall.mpr hc)
      · exact absurd he (by simp)
  · intro h1 h2 e he
    unfold decode at he
    rw [if_neg h1, if_neg (fun hc => hc (hall.mpr h2))] at he
    exact absurd he (by simp)
  · intro p hp
    obtain ⟨hT, _, rfl⟩ := decode_ok_elim hmm obs p hp
    rw [tracePath_length hmm obs]
    omega

theorem decode_no_midway_failure_witness :
    decode exHMM exObs ≠ Except.error DecodeError.emptyInput ∧
    ([0, 1] : List ℕ).length = exObs.length := by
  have hok : decode exHMM exObs = Except.ok [0, 1] := by
    norm_num [decode, exHMM, exObs, bestFinal, tracePath, psi, deltaRow,
      maxOver, argmaxIdx]
  exact ⟨(decode_no_midway_failure exHMM exObs).2.1 (by decide) (by decide)
      DecodeError.emptyInput,
    (decode_no_midway_failure exHMM exObs).2.2 [0, 1] hok⟩

/-- C7: `decode` is deterministic — it is a pure function of the model
parameters and the observations; two models whose parameters agree on
the valid states `[0, n)` produce identical output on identical
observation sequences (there is no hidden randomness, and the fixed
tie-break rule leaves no freedom). -/
theorem decode_deterministic (h1 h2 : HMM) (obs1 obs2 : List (List ℚ))
    (hpos : 1 ≤ h1.n) (hn : h1.n = h2.n) (hd : h1.d = h2.d)
    (hinit : ∀ s < h1.n, h1.initialLogProb s = h2.initialLogProb s)
    (htr : ∀ s < h1.n, ∀ u < h1.n,
      h1.transitionLogProb s u = h2.transitionLogProb s u)
    (hdens : ∀ s < h1.n, ∀ o, h1.logDensity s o = h2.logDensity s o)
    (hobs : obs1 = obs2) :
    decode h1 obs1 = decode h2 obs2 := by
  subst hobs
  unfold decode
  rw [← hd]
  by_cases hc1 : obs1.length = 0
  · rw [if_pos hc1, if_pos hc1]
  · rw [if_neg hc1, if_neg hc1]
    by_cases hc2 : ¬ (obs1.all fun o => o.length == h1.d) = true
    · rw [if_pos hc2, if_pos hc2]
    · rw [if_neg hc2, if_neg hc2]
      have hbf := bestFinal_congr h1 h2 obs1 hn hpos hinit htr hdens
      have hbflt : bestFinal h1 obs1 < h1.n :=
        argmaxIdx_lt (fun s => deltaRow h1 obs1 (obs1.length - 1) s) h1.n hpos
      rw [← hbf]
      exact congrArg Except.ok
        (tracePath_congr h1 h2 obs1 hn hpos hinit htr hdens
          (obs1.length - 1) (bestFinal h1 obs1) hbflt)

theorem decode_deterministic_witness :
    decode exHMM exObs = decode exHMM2 exObs :=
  decode_deterministic exHMM exHMM2 exObs exObs (by decide) rfl rfl
    (by
      intro s hs
      have hs2 : s < 2 := hs
      interval_cases s <;> norm_num [exHMM, exHMM2])
    (by
      intro s hs u hu
      have hs2 : s < 2 := hs
      have hu2 : u < 2 := hu
      simp [exHMM, exHMM2, hs2, hu2])
    (by
      intro s hs o
      have hs2 : s < 2 := hs
      interval_cases s <;> simp [exHMM, exHMM2])
    rfl

/-- C8: both the maximization over predecessor states recorded in
`psi[t][s]` and the final argmax over states at time `T-1` select, among
all maximizers, the lowest state index. -/
theorem decode_tie_break_lowest (hmm : HMM) (obs : List (List ℚ))
    (hn : 1 ≤ hmm.n) (t s : ℕ) :
    (psi hmm obs (t + 1) s < hmm.n ∧
      ∀ j < hmm.n,
        (deltaRow hmm obs t j + hmm.transitionLogProb j s ≤
          deltaRow hmm obs t (psi hmm obs (t + 1) s) +
            hmm.transitionLogProb (psi hmm obs (t + 1) s) s) ∧
        (deltaRow hmm obs t j + hmm.transitionLogProb j s =
            deltaRow hmm obs t (psi hmm obs (t + 1) s) +
              hmm.transitionLogProb (psi hmm obs (t + 1) s) s →
          psi hmm obs (t + 1) s ≤ j)) ∧
    (bestFinal hmm obs < hmm.n ∧
      ∀ j < hmm.n,
        (deltaRow hmm obs (obs.length - 1) j ≤
          deltaRow hmm obs (obs.length - 1) (bestFinal hmm obs)) ∧
        (deltaRow hmm obs (obs.length - 1) j =
            deltaRow hmm obs (obs.length - 1) (bestFinal hmm obs) →
          bestFinal hmm obs ≤ j)) := by
  constructor
  · refine ⟨argmaxIdx_lt
      (fun u => deltaRow hmm obs t u + hmm.transitionLogProb u s) hmm.n hn,
      ?_⟩
    intro j hj
    exact ⟨le_maxOver
        (fun u => deltaRow hmm obs t u + hmm.transitionLogProb u s) hmm.n j hj,
      fun he => argmaxIdx_le_of_eq
        (fun u => deltaRow hmm obs t u + hmm.transitionLogProb u s) hmm.n j he⟩
  · refine ⟨argmaxIdx_lt
      (fun u => deltaRow hmm obs (obs.length - 1) u) hmm.n hn, ?_⟩
    intro j hj
    exact ⟨le_maxOver
        (fun u => deltaRow hmm obs (obs.length - 1) u) hmm.n j hj,
      fun he => argmaxIdx_le_of_eq
        (fun u => deltaRow hmm obs (obs.length - 1) u) hmm.n j he⟩

theorem decode_tie_break_lowest_witness :
    psi exHMM exObs 1 0 < exHMM.n ∧
    deltaRow exHMM exObs 1 0 ≤
      deltaRow exHMM exObs 1 (bestFinal exHMM exObs) :=
  ⟨(decode_tie_break_lowest exHMM exObs (by decide) 0 0).1.1,
   ((decode_tie_break_lowest exHMM exObs (by decide) 0 0).2.2 0 (by decide)).1⟩

end HMMViterbi
